import Mathlib

/-!
Verification development for the XML file scanner (`scanner.js`).

The scanner discovers remotely hosted XML documents, fetches per-file
metadata, and diffs successive snapshots.  The definitions below are a
shallow embedding of the source: pure functions are translated directly,
stateful methods become explicit state passing, network transport becomes
an explicit collaborator argument, and JavaScript `Map` objects become
association lists with JS `Map` semantics (set on an existing key replaces
the value in place, preserving insertion order).
-/

namespace Scanner

/-- A file record as assembled by `scanDirectory` (one entry of a snapshot):
name, url, checksum, last-modified token, size. -/
structure FileRecord where
  name : String
  url : String
  checksum : String
  lastModified : String
  size : Nat
deriving Repr, DecidableEq

/-- One entry of `changes.modified` in `detectChanges`: the name, both
records, and the per-field change flags. -/
structure ModifiedEntry where
  name : String
  previous : FileRecord
  current : FileRecord
  contentChanged : Bool
  sizeChanged : Bool
  timeChanged : Bool
deriving Repr, DecidableEq

/-- The `changes` object produced by `detectChanges`. -/
structure ChangeReport where
  hasChanges : Bool
  added : List FileRecord
  removed : List FileRecord
  modified : List ModifiedEntry
  unchanged : List FileRecord
  allFiles : List String
deriving Repr, DecidableEq

/-- Association list standing for a JavaScript `Map` from names to records. -/
abbrev AssocList := List (String × FileRecord)

/-- `Map.get`: the value of the first (hence, under the nodup-keys invariant
of JS maps, the only) pair with the given key. -/
def mapGet (m : AssocList) (k : String) : Option FileRecord :=
  (m.find? (fun p => p.1 == k)).map Prod.snd

/-- `Map.has`. -/
def mapHas (m : AssocList) (k : String) : Bool :=
  (mapGet m k).isSome

/-- `Map.set`: replace the value in place when the key is present (JS maps
keep the original insertion position), otherwise append. -/
def mapSet (m : AssocList) (k : String) (v : FileRecord) : AssocList :=
  match m with
  | [] => [(k, v)]
  | p :: rest => if p.1 = k then (k, v) :: rest else p :: mapSet rest k v

/-- `files.forEach(file => map.set(file.name, file))` starting from an empty
map, as done for `currentMap` and `previousMap` in `detectChanges`. -/
def buildMap (files : List FileRecord) : AssocList :=
  files.foldl (fun m f => mapSet m f.name f) []

/-- The modification test of `detectChanges`: checksum, lastModified or size
differs. -/
def fieldsDiffer (currentFile previousFile : FileRecord) : Bool :=
  currentFile.checksum != previousFile.checksum ||
  currentFile.lastModified != previousFile.lastModified ||
  currentFile.size != previousFile.size

/-- The object pushed onto `changes.modified`. -/
def mkModifiedEntry (name : String) (previousFile currentFile : FileRecord) :
    ModifiedEntry :=
  { name := name
    previous := previousFile
    current := currentFile
    contentChanged := currentFile.checksum != previousFile.checksum
    sizeChanged := currentFile.size != previousFile.size
    timeChanged := currentFile.lastModified != previousFile.lastModified }

/-- Body of the `for (const [name, file] of currentMap)` loop that pushes
added files. -/
def addedStep (previousMap : AssocList) (ch : ChangeReport)
    (p : String × FileRecord) : ChangeReport :=
  if mapHas previousMap p.1 then ch
  else { ch with added := ch.added ++ [p.2], hasChanges := true }

/-- Body of the `for (const [name, file] of previousMap)` loop that pushes
removed files. -/
def removedStep (currentMap : AssocList) (ch : ChangeReport)
    (p : String × FileRecord) : ChangeReport :=
  if mapHas currentMap p.1 then ch
  else { ch with removed := ch.removed ++ [p.2], hasChanges := true }

/-- Body of the third loop over `currentMap`: for names also present in
`previousMap`, push a modified entry when a field differs, otherwise push
the current record to `unchanged`. -/
def modifiedStep (previousMap : AssocList) (ch : ChangeReport)
    (p : String × FileRecord) : ChangeReport :=
  match mapGet previousMap p.1 with
  | none => ch
  | some previousFile =>
    if fieldsDiffer p.2 previousFile then
      { ch with
        modified := ch.modified ++ [mkModifiedEntry p.1 previousFile p.2],
        hasChanges := true }
    else
      { ch with unchanged := ch.unchanged ++ [p.2] }

/-- `detectChanges(currentFiles)`, with the retained `this.lastScanResults`
passed explicitly (the method only reads it). -/
def detectChanges (lastScanResults currentFiles : List FileRecord) :
    ChangeReport :=
  let init : ChangeReport :=
    { hasChanges := false
      added := []
      removed := []
      modified := []
      unchanged := []
      allFiles := currentFiles.map FileRecord.name }
  let currentMap := buildMap currentFiles
  let previousMap := buildMap lastScanResults
  let afterAdded := currentMap.foldl (addedStep previousMap) init
  let afterRemoved := previousMap.foldl (removedStep currentMap) afterAdded
  currentMap.foldl (modifiedStep previousMap) afterRemoved

/-- The last record of `l` carrying name `k` — what a fold of `Map.set`
leaves behind for key `k`. -/
def lastNamed (l : List FileRecord) (k : String) : Option FileRecord :=
  l.reverse.find? (fun f => f.name == k)

theorem mapGet_cons (p : String × FileRecord) (m : AssocList) (k : String) :
    mapGet (p :: m) k = if p.1 = k then some p.2 else mapGet m k := by
  by_cases h : p.1 = k
  · simp [mapGet, List.find?_cons_of_pos, h]
  · simp [mapGet, List.find?_cons_of_neg, h]

theorem mapGet_mapSet (m : AssocList) (k : String) (v : FileRecord)
    (a : String) :
    mapGet (mapSet m k v) a = if k = a then some v else mapGet m a := by
  induction m with
  | nil =>
    by_cases h : k = a <;> simp [mapSet, mapGet_cons, h]
  | cons p rest ih =>
    by_cases hpk : p.1 = k
    · rw [show mapSet (p :: rest) k v = (k, v) :: rest by simp [mapSet, hpk]]
      rw [mapGet_cons, mapGet_cons]
      by_cases hka : k = a
      · simp [hka]
      · have hpa : p.1 ≠ a := by rw [hpk]; exact hka
        simp [hka, hpa]
    · rw [show mapSet (p :: rest) k v = p :: mapSet rest k v by
        simp [mapSet, hpk]]
      rw [mapGet_cons, ih, mapGet_cons]
      by_cases hpa : p.1 = a
      · have hka : k ≠ a := fun h => hpk (hpa.trans h.symm)
        simp [hpa, hka]
      · simp [hpa]

theorem mapGet_buildMapAux (l : List FileRecord) (m : AssocList) (k : String) :
    mapGet (l.foldl (fun m f => mapSet m f.name f) m) k =
      match lastNamed l k with
      | some f => some f
      | none => mapGet m k := by
  induction l generalizing m with
  | nil => simp [lastNamed]
  | cons f l ih =>
    rw [List.foldl_cons, ih]
    have hsplit : lastNamed (f :: l) k =
        match lastNamed l k with
        | some g => some g
        | none => if f.name == k then some f else none := by
      simp only [lastNamed, List.reverse_cons, List.find?_append]
      cases l.reverse.find? (fun g => g.name == k) with
      | none =>
        simp only [Option.or]
        by_cases h : f.name = k
        · simp [List.find?_cons_of_pos, h]
        · simp [List.find?_cons_of_neg, h]
      | some g => simp [Option.or]
    rw [hsplit]
    cases hl : lastNamed l k with
    | some g => simp
    | none =>
      rw [mapGet_mapSet]
      by_cases h : f.name = k <;> simp [h]

/-- `currentMap.get(name)` after building the map is the last record of the
snapshot list named `name`. -/
theorem mapGet_buildMap (l : List FileRecord) (k : String) :
    mapGet (buildMap l) k = lastNamed l k := by
  rw [buildMap, mapGet_buildMapAux]
  cases lastNamed l k <;> simp [mapGet]

/-- `Map.has` on the built map is exactly membership of the name in the
snapshot's name list. -/
theorem mapHas_buildMap (l : List FileRecord) (k : String) :
    mapHas (buildMap l) k = true ↔ k ∈ l.map FileRecord.name := by
  rw [mapHas, mapGet_buildMap, lastNamed]
  rw [Option.isSome_iff_exists]
  constructor
  · rintro ⟨f, hf⟩
    have hm := List.mem_of_find?_eq_some hf
    have hp := List.find?_some hf
    exact List.mem_map.mpr ⟨f, List.mem_reverse.mp hm, by simpa using hp⟩
  · intro hx
    obtain ⟨f, hf, hname⟩ := List.mem_map.mp hx
    have : (l.reverse.find? (fun f => f.name == k)).isSome :=
      List.find?_isSome.mpr ⟨f, List.mem_reverse.mpr hf, by simp [hname]⟩
    exact Option.isSome_iff_exists.mp this

theorem mapGet_buildMap_eq_some {l : List FileRecord} {k : String}
    {v : FileRecord} (h : mapGet (buildMap l) k = some v) :
    v.name = k ∧ v ∈ l := by
  rw [mapGet_buildMap, lastNamed] at h
  exact ⟨by simpa using List.find?_some h,
    List.mem_reverse.mp (List.mem_of_find?_eq_some h)⟩

theorem mapGet_eq_some_mem {m : AssocList} {k : String} {v : FileRecord}
    (h : mapGet m k = some v) : (k, v) ∈ m := by
  rw [mapGet] at h
  obtain ⟨q, hq, hqv⟩ := Option.map_eq_some'.mp h
  have hk : q.1 = k := by simpa using List.find?_some hq
  have hm := List.mem_of_find?_eq_some hq
  have : q = (k, v) := by
    cases q
    simp_all
  exact this ▸ hm

theorem mem_keys_mapSet (m : AssocList) (k : String) (v : FileRecord)
    (a : String) :
    a ∈ (mapSet m k v).map Prod.fst ↔ a ∈ m.map Prod.fst ∨ a = k := by
  induction m with
  | nil => simp [mapSet, eq_comm]
  | cons p rest ih =>
    by_cases h : p.1 = k
    · subst h
      simp [mapSet, eq_comm]
      tauto
    · simp [mapSet, h, ih]
      tauto

theorem nodupKeys_mapSet (m : AssocList) (k : String) (v : FileRecord)
    (h : (m.map Prod.fst).Nodup) : ((mapSet m k v).map Prod.fst).Nodup := by
  induction m with
  | nil => simp [mapSet]
  | cons p rest ih =>
    simp only [List.map_cons, List.nodup_cons] at h
    by_cases hpk : p.1 = k
    · subst hpk
      simpa [mapSet, List.nodup_cons] using h
    · simp only [mapSet, hpk, if_false, List.map_cons, List.nodup_cons]
      refine ⟨fun hc => ?_, ih h.2⟩
      rcases (mem_keys_mapSet rest k v p.1).mp hc with hc | hc
      · exact h.1 hc
      · exact hpk hc

theorem nodupKeys_buildMapAux (l : List FileRecord) (m : AssocList)
    (h : (m.map Prod.fst).Nodup) :
    (((l.foldl (fun m f => mapSet m f.name f) m)).map Prod.fst).Nodup := by
  induction l generalizing m with
  | nil => simpa
  | cons f l ih => exact ih _ (nodupKeys_mapSet m f.name f h)

theorem nodupKeys_buildMap (l : List FileRecord) :
    ((buildMap l).map Prod.fst).Nodup :=
  nodupKeys_buildMapAux l [] (by simp)

theorem mem_mapGet_of_nodup {m : AssocList} {k : String} {v : FileRecord}
    (hnd : (m.map Prod.fst).Nodup) (h : (k, v) ∈ m) :
    mapGet m k = some v := by
  induction m with
  | nil => simp at h
  | cons p rest ih =>
    simp only [List.map_cons, List.nodup_cons] at hnd
    rcases List.mem_cons.mp h with h | h
    · rw [← h, mapGet_cons]
      simp
    · rw [mapGet_cons]
      have hk : k ∈ rest.map Prod.fst := List.mem_map.mpr ⟨(k, v), h, rfl⟩
      have hne : p.1 ≠ k := fun he => hnd.1 (he ▸ hk)
      simp [hne, ih hnd.2 h]

/-- Membership in the built map is exactly `Map.get` returning that value. -/
theorem mem_buildMap_iff (l : List FileRecord) (p : String × FileRecord) :
    p ∈ buildMap l ↔ mapGet (buildMap l) p.1 = some p.2 :=
  ⟨fun h => mem_mapGet_of_nodup (nodupKeys_buildMap l) h,
   fun h => mapGet_eq_some_mem h⟩

/-! ### Closed forms of the three loops of `detectChanges` -/

/-- Records of the current map whose name is absent from the previous map. -/
def addedOf (previousMap : AssocList) (l : AssocList) : List FileRecord :=
  (l.filter (fun p => !mapHas previousMap p.1)).map Prod.snd

/-- Records of the previous map whose name is absent from the current map. -/
def removedOf (currentMap : AssocList) (l : AssocList) : List FileRecord :=
  (l.filter (fun p => !mapHas currentMap p.1)).map Prod.snd

/-- Modified entries produced by the third loop. -/
def modifiedOf (previousMap : AssocList) (l : AssocList) : List ModifiedEntry :=
  l.filterMap (fun p =>
    match mapGet previousMap p.1 with
    | none => none
    | some prev =>
      if fieldsDiffer p.2 prev then some (mkModifiedEntry p.1 prev p.2)
      else none)

/-- Unchanged records produced by the third loop. -/
def unchangedOf (previousMap : AssocList) (l : AssocList) : List FileRecord :=
  l.filterMap (fun p =>
    match mapGet previousMap p.1 with
    | none => none
    | some prev => if fieldsDiffer p.2 prev then none else some p.2)

/-- Whether the third loop sets `hasChanges`. -/
def anyModified (previousMap : AssocList) (l : AssocList) : Bool :=
  l.any (fun p =>
    match mapGet previousMap p.1 with
    | none => false
    | some prev => fieldsDiffer p.2 prev)

theorem foldl_addedStep (previousMap : AssocList) (l : AssocList)
    (ch : ChangeReport) :
    l.foldl (addedStep previousMap) ch =
      { ch with
        added := ch.added ++ addedOf previousMap l,
        hasChanges :=
          ch.hasChanges || l.any (fun p => !mapHas previousMap p.1) } := by
  induction l generalizing ch with
  | nil => cases ch; simp [addedOf]
  | cons p l ih =>
    rw [List.foldl_cons, ih]
    by_cases h : mapHas previousMap p.1 <;>
      simp [addedStep, h, addedOf, List.filter_cons]

theorem foldl_removedStep (currentMap : AssocList) (l : AssocList)
    (ch : ChangeReport) :
    l.foldl (removedStep currentMap) ch =
      { ch with
        removed := ch.removed ++ removedOf currentMap l,
        hasChanges :=
          ch.hasChanges || l.any (fun p => !mapHas currentMap p.1) } := by
  induction l generalizing ch with
  | nil => cases ch; simp [removedOf]
  | cons p l ih =>
    rw [List.foldl_cons, ih]
    by_cases h : mapHas currentMap p.1 <;>
      simp [removedStep, h, removedOf, List.filter_cons]

theorem foldl_modifiedStep (previousMap : AssocList) (l : AssocList)
    (ch : ChangeReport) :
    l.foldl (modifiedStep previousMap) ch =
      { ch with
        modified := ch.modified ++ modifiedOf previousMap l,
        unchanged := ch.unchanged ++ unchangedOf previousMap l,
        hasChanges := ch.hasChanges || anyModified previousMap l } := by
  induction l generalizing ch with
  | nil => cases ch; simp [modifiedOf, unchangedOf, anyModified]
  | cons p l ih =>
    rw [List.foldl_cons, ih]
    cases hget : mapGet previousMap p.1 with
    | none =>
      simp [modifiedStep, hget, modifiedOf, unchangedOf, anyModified,
        List.filterMap_cons, List.any_cons]
    | some prev =>
      by_cases hdiff : fieldsDiffer p.2 prev <;>
        simp [modifiedStep, hget, hdiff, modifiedOf, unchangedOf, anyModified,
          List.filterMap_cons, List.any_cons]

/-- Closed form of `detectChanges`: each output field as a comprehension
over the two maps. -/
theorem detectChanges_eq (A B : List FileRecord) :
    detectChanges A B =
      { hasChanges :=
          (buildMap B).any (fun p => !mapHas (buildMap A) p.1) ||
          (buildMap A).any (fun p => !mapHas (buildMap B) p.1) ||
          anyModified (buildMap A) (buildMap B)
        added := addedOf (buildMap A) (buildMap B)
        removed := removedOf (buildMap B) (buildMap A)
        modified := modifiedOf (buildMap A) (buildMap B)
        unchanged := unchangedOf (buildMap A) (buildMap B)
        allFiles := B.map FileRecord.name } := by
  unfold detectChanges
  dsimp only
  rw [foldl_addedStep, foldl_removedStep, foldl_modifiedStep]
  simp [Bool.or_assoc]

/-! ### Membership characterizations of the report fields -/

theorem mapGet_buildMap_isSome_iff (l : List FileRecord) (k : String) :
    (∃ v, mapGet (buildMap l) k = some v) ↔ k ∈ l.map FileRecord.name := by
  rw [← mapHas_buildMap, mapHas, Option.isSome_iff_exists]

theorem name_mem_added (A B : List FileRecord) (x : String) :
    x ∈ (detectChanges A B).added.map FileRecord.name ↔
      x ∈ B.map FileRecord.name ∧ x ∉ A.map FileRecord.name := by
  rw [detectChanges_eq]
  simp only [addedOf, List.map_map, List.mem_map, List.mem_filter,
    Function.comp]
  constructor
  · rintro ⟨p, ⟨hp, hcond⟩, hname⟩
    have hpair := (mem_buildMap_iff B p).mp hp
    have hinv := mapGet_buildMap_eq_some hpair
    have hx : p.1 = x := hinv.1.symm.trans hname
    refine ⟨⟨p.2, hinv.2, hname⟩, fun hxA => ?_⟩
    have : mapHas (buildMap A) p.1 = true :=
      (mapHas_buildMap A p.1).mpr (hx ▸ List.mem_map.mpr hxA)
    simp [this] at hcond
  · rintro ⟨hxB, hxA⟩
    obtain ⟨v, hv⟩ :=
      (mapGet_buildMap_isSome_iff B x).mpr (List.mem_map.mpr hxB)
    have hnamev := (mapGet_buildMap_eq_some hv).1
    have hcond : mapHas (buildMap A) x = false := by
      by_contra h
      exact hxA (List.mem_map.mp ((mapHas_buildMap A x).mp (by simpa using h)))
    exact ⟨(x, v), ⟨(mem_buildMap_iff B (x, v)).mpr hv, by simp [hcond]⟩,
      hnamev⟩

theorem name_mem_removed (A B : List FileRecord) (x : String) :
    x ∈ (detectChanges A B).removed.map FileRecord.name ↔
      x ∈ A.map FileRecord.name ∧ x ∉ B.map FileRecord.name := by
  rw [detectChanges_eq]
  simp only [removedOf, List.map_map, List.mem_map, List.mem_filter,
    Function.comp]
  constructor
  · rintro ⟨p, ⟨hp, hcond⟩, hname⟩
    have hpair := (mem_buildMap_iff A p).mp hp
    have hinv := mapGet_buildMap_eq_some hpair
    have hx : p.1 = x := hinv.1.symm.trans hname
    refine ⟨⟨p.2, hinv.2, hname⟩, fun hxB => ?_⟩
    have : mapHas (buildMap B) p.1 = true :=
      (mapHas_buildMap B p.1).mpr (hx ▸ List.mem_map.mpr hxB)
    simp [this] at hcond
  · rintro ⟨hxA, hxB⟩
    obtain ⟨v, hv⟩ :=
      (mapGet_buildMap_isSome_iff A x).mpr (List.mem_map.mpr hxA)
    have hnamev := (mapGet_buildMap_eq_some hv).1
    have hcond : mapHas (buildMap B) x = false := by
      by_contra h
      exact hxB (List.mem_map.mp ((mapHas_buildMap B x).mp (by simpa using h)))
    exact ⟨(x, v), ⟨(mem_buildMap_iff A (x, v)).mpr hv, by simp [hcond]⟩,
      hnamev⟩

theorem mem_modified_iff (A B : List FileRecord) (e : ModifiedEntry) :
    e ∈ (detectChanges A B).modified ↔
      ∃ x prev cur, mapGet (buildMap A) x = some prev ∧
        mapGet (buildMap B) x = some cur ∧ fieldsDiffer cur prev = true ∧
        e = mkModifiedEntry x prev cur := by
  rw [detectChanges_eq]
  simp only [modifiedOf, List.mem_filterMap]
  constructor
  · rintro ⟨p, hp, hmap⟩
    cases hget : mapGet (buildMap A) p.1 with
    | none => rw [hget] at hmap; simp at hmap
    | some prev =>
      rw [hget] at hmap
      by_cases hdiff : fieldsDiffer p.2 prev = true
      · simp only [hdiff, if_true] at hmap
        exact ⟨p.1, prev, p.2, hget, (mem_buildMap_iff B p).mp hp, hdiff,
          (Option.some_injective _ hmap).symm⟩
      · simp [hdiff] at hmap
  · rintro ⟨x, prev, cur, hA, hB, hdiff, he⟩
    exact ⟨(x, cur), (mem_buildMap_iff B (x, cur)).mpr hB,
      by simp [hA, hdiff, he]⟩

theorem name_mem_modified (A B : List FileRecord) (x : String) :
    x ∈ (detectChanges A B).modified.map ModifiedEntry.name ↔
      ∃ prev cur, mapGet (buildMap A) x = some prev ∧
        mapGet (buildMap B) x = some cur ∧ fieldsDiffer cur prev = true := by
  constructor
  · rintro hx
    obtain ⟨e, he, hname⟩ := List.mem_map.mp hx
    obtain ⟨y, prev, cur, hA, hB, hdiff, hmk⟩ := (mem_modified_iff A B e).mp he
    have hy : y = x := by rw [← hname, hmk]; rfl
    exact ⟨prev, cur, hy ▸ hA, hy ▸ hB, hdiff⟩
  · rintro ⟨prev, cur, hA, hB, hdiff⟩
    exact List.mem_map.mpr ⟨mkModifiedEntry x prev cur,
      (mem_modified_iff A B _).mpr ⟨x, prev, cur, hA, hB, hdiff, rfl⟩, rfl⟩

theorem mem_unchanged_iff (A B : List FileRecord) (r : FileRecord) :
    r ∈ (detectChanges A B).unchanged ↔
      ∃ x prev, mapGet (buildMap A) x = some prev ∧
        mapGet (buildMap B) x = some r ∧ fieldsDiffer r prev = false := by
  rw [detectChanges_eq]
  simp only [unchangedOf, List.mem_filterMap]
  constructor
  · rintro ⟨p, hp, hmap⟩
    cases hget : mapGet (buildMap A) p.1 with
    | none => rw [hget] at hmap; simp at hmap
    | some prev =>
      rw [hget] at hmap
      by_cases hdiff : fieldsDiffer p.2 prev = true
      · simp [hdiff] at hmap
      · simp only [hdiff, if_false] at hmap
        have hr : p.2 = r := Option.some_injective _ hmap
        exact ⟨p.1, prev, hget, hr ▸ (mem_buildMap_iff B p).mp hp,
          by rw [← hr]; simpa using hdiff⟩
  · rintro ⟨x, prev, hA, hB, hdiff⟩
    exact ⟨(x, r), (mem_buildMap_iff B (x, r)).mpr hB, by simp [hA, hdiff]⟩

theorem name_mem_unchanged (A B : List FileRecord) (x : String) :
    x ∈ (detectChanges A B).unchanged.map FileRecord.name ↔
      ∃ prev cur, mapGet (buildMap A) x = some prev ∧
        mapGet (buildMap B) x = some cur ∧ fieldsDiffer cur prev = false := by
  constructor
  · rintro hx
    obtain ⟨r, hr, hname⟩ := List.mem_map.mp hx
    obtain ⟨y, prev, hA, hB, hdiff⟩ := (mem_unchanged_iff A B r).mp hr
    have hy : y = x := ((mapGet_buildMap_eq_some hB).1.symm.trans hname).symm ▸ rfl
    exact ⟨prev, r, by rw [← hy]; exact hA, by rw [← hy]; exact hB, hdiff⟩
  · rintro ⟨prev, cur, hA, hB, hdiff⟩
    refine List.mem_map.mpr ⟨cur,
      (mem_unchanged_iff A B cur).mpr ⟨x, prev, hA, hB, hdiff⟩, ?_⟩
    exact (mapGet_buildMap_eq_some hB).1

/-- The Bool modification test as a proposition on the three compared
fields. -/
theorem fieldsDiffer_iff (cur prev : FileRecord) :
    fieldsDiffer cur prev = true ↔
      (cur.checksum ≠ prev.checksum ∨ cur.lastModified ≠ prev.lastModified ∨
       cur.size ≠ prev.size) := by
  simp [fieldsDiffer, or_assoc]

theorem addedOf_ne_nil_iff (pm l : AssocList) :
    addedOf pm l ≠ [] ↔ l.any (fun p => !mapHas pm p.1) = true := by
  rw [addedOf, Ne, List.map_eq_nil_iff, List.filter_eq_nil_iff,
    List.any_eq_true]
  push_neg
  simp

theorem removedOf_ne_nil_iff (cm l : AssocList) :
    removedOf cm l ≠ [] ↔ l.any (fun p => !mapHas cm p.1) = true :=
  addedOf_ne_nil_iff cm l

theorem modifiedOf_ne_nil_iff (pm l : AssocList) :
    modifiedOf pm l ≠ [] ↔ anyModified pm l = true := by
  rw [modifiedOf, Ne, List.filterMap_eq_nil_iff, anyModified,
    List.any_eq_true]
  push_neg
  constructor
  · rintro ⟨p, hp, hne⟩
    refine ⟨p, hp, ?_⟩
    cases hget : mapGet pm p.1 with
    | none => rw [hget] at hne; simp at hne
    | some prev =>
      rw [hget] at hne
      by_cases hdiff : fieldsDiffer p.2 prev = true
      · simpa [hget] using hdiff
      · simp [hdiff] at hne
  · rintro ⟨p, hp, hcond⟩
    refine ⟨p, hp, ?_⟩
    cases hget : mapGet pm p.1 with
    | none => rw [hget] at hcond; simp at hcond
    | some prev =>
      rw [hget] at hcond
      simp at hcond
      simp [hget, hcond]

/-- The names of a snapshot (list of records). -/
def snapshotNames (l : List FileRecord) : List String :=
  l.map FileRecord.name

/-- Names of the `added` field of the report for snapshots `A`, `B`. -/
def addedNames (A B : List FileRecord) : List String :=
  (detectChanges A B).added.map FileRecord.name

/-- Names of the `removed` field. -/
def removedNames (A B : List FileRecord) : List String :=
  (detectChanges A B).removed.map FileRecord.name

/-- Names of the `modified` field. -/
def modifiedNames (A B : List FileRecord) : List String :=
  (detectChanges A B).modified.map ModifiedEntry.name

/-- Names of the `unchanged` field. -/
def unchangedNames (A B : List FileRecord) : List String :=
  (detectChanges A B).unchanged.map FileRecord.name

theorem mem_modifiedNames_both (A B : List FileRecord) (x : String)
    (hx : x ∈ modifiedNames A B) :
    x ∈ snapshotNames A ∧ x ∈ snapshotNames B := by
  obtain ⟨prev, cur, hA, hB, _⟩ := (name_mem_modified A B x).mp hx
  exact ⟨(mapGet_buildMap_isSome_iff A x).mp ⟨prev, hA⟩,
    (mapGet_buildMap_isSome_iff B x).mp ⟨cur, hB⟩⟩

theorem mem_unchangedNames_both (A B : List FileRecord) (x : String)
    (hx : x ∈ unchangedNames A B) :
    x ∈ snapshotNames A ∧ x ∈ snapshotNames B := by
  obtain ⟨prev, cur, hA, hB, _⟩ := (name_mem_unchanged A B x).mp hx
  exact ⟨(mapGet_buildMap_isSome_iff A x).mp ⟨prev, hA⟩,
    (mapGet_buildMap_isSome_iff B x).mp ⟨cur, hB⟩⟩

/-- Claim C1: for every previous snapshot `A` and current snapshot `B`, the
report of `detectChanges` partitions names: `added` is exactly the names in
`B` but not `A`, `removed` exactly those in `A` but not `B`, `modified` and
`unchanged` names lie in the intersection, the four name-sets are pairwise
disjoint, and their union is `names A ∪ names B`. -/
theorem C1_diff_partition (A B : List FileRecord) :
    (∀ x, x ∈ addedNames A B ↔ (x ∈ snapshotNames B ∧ x ∉ snapshotNames A)) ∧
    (∀ x, x ∈ removedNames A B ↔
      (x ∈ snapshotNames A ∧ x ∉ snapshotNames B)) ∧
    (∀ x, x ∈ modifiedNames A B →
      x ∈ snapshotNames A ∧ x ∈ snapshotNames B) ∧
    (∀ x, x ∈ unchangedNames A B →
      x ∈ snapshotNames A ∧ x ∈ snapshotNames B) ∧
    (∀ x, ¬(x ∈ addedNames A B ∧ x ∈ removedNames A B)) ∧
    (∀ x, ¬(x ∈ addedNames A B ∧ x ∈ modifiedNames A B)) ∧
    (∀ x, ¬(x ∈ addedNames A B ∧ x ∈ unchangedNames A B)) ∧
    (∀ x, ¬(x ∈ removedNames A B ∧ x ∈ modifiedNames A B)) ∧
    (∀ x, ¬(x ∈ removedNames A B ∧ x ∈ unchangedNames A B)) ∧
    (∀ x, ¬(x ∈ modifiedNames A B ∧ x ∈ unchangedNames A B)) ∧
    (∀ x, (x ∈ addedNames A B ∨ x ∈ removedNames A B ∨
        x ∈ modifiedNames A B ∨ x ∈ unchangedNames A B) ↔
      (x ∈ snapshotNames A ∨ x ∈ snapshotNames B)) := by
  have hadd : ∀ x, x ∈ addedNames A B ↔
      (x ∈ snapshotNames B ∧ x ∉ snapshotNames A) :=
    fun x => name_mem_added A B x
  have hrem : ∀ x, x ∈ removedNames A B ↔
      (x ∈ snapshotNames A ∧ x ∉ snapshotNames B) :=
    fun x => name_mem_removed A B x
  have hmod := mem_modifiedNames_both A B
  have hunch := mem_unchangedNames_both A B
  refine ⟨hadd, hrem, hmod, hunch, ?_, ?_, ?_, ?_, ?_, ?_, ?_⟩
  · rintro x ⟨ha, hr⟩
    exact ((hadd x).mp ha).2 ((hrem x).mp hr).1
  · rintro x ⟨ha, hm⟩
    exact ((hadd x).mp ha).2 (hmod x hm).1
  · rintro x ⟨ha, hu⟩
    exact ((hadd x).mp ha).2 (hunch x hu).1
  · rintro x ⟨hr, hm⟩
    exact ((hrem x).mp hr).2 (hmod x hm).2
  · rintro x ⟨hr, hu⟩
    exact ((hrem x).mp hr).2 (hunch x hu).2
  · rintro x ⟨hm, hu⟩
    obtain ⟨prev, cur, hA, hB, hdiff⟩ := (name_mem_modified A B x).mp hm
    obtain ⟨prev', cur', hA', hB', hdiff'⟩ := (name_mem_unchanged A B x).mp hu
    have hp : prev' = prev := Option.some_injective _ (hA'.symm.trans hA)
    have hc : cur' = cur := Option.some_injective _ (hB'.symm.trans hB)
    rw [hp, hc] at hdiff'
    rw [hdiff] at hdiff'
    exact Bool.true_eq_false ▸ hdiff'
  · intro x
    constructor
    · rintro (h | h | h | h)
      · exact Or.inr ((hadd x).mp h).1
      · exact Or.inl ((hrem x).mp h).1
      · exact Or.inl (hmod x h).1
      · exact Or.inl (hunch x h).1
    · intro h
      by_cases hxA : x ∈ snapshotNames A
      · by_cases hxB : x ∈ snapshotNames B
        · obtain ⟨prev, hA⟩ := (mapGet_buildMap_isSome_iff A x).mpr hxA
          obtain ⟨cur, hB⟩ := (mapGet_buildMap_isSome_iff B x).mpr hxB
          cases hdiff : fieldsDiffer cur prev with
          | true =>
            exact Or.inr (Or.inr (Or.inl ((name_mem_modified A B x).mpr
              ⟨prev, cur, hA, hB, hdiff⟩)))
          | false =>
            exact Or.inr (Or.inr (Or.inr ((name_mem_unchanged A B x).mpr
              ⟨prev, cur, hA, hB, hdiff⟩)))
        · exact Or.inr (Or.inl ((hrem x).mpr ⟨hxA, hxB⟩))
      · rcases h with h | h
        · exact absurd h hxA
        · exact Or.inl ((hadd x).mpr ⟨h, hxA⟩)

/-- Concrete instantiation of the partition invariant: with previous
snapshot holding only `old` and current snapshot holding only `new`, the
report adds `new` and removes `old`. -/
theorem C1_diff_partition_witness :
    "new" ∈ addedNames [⟨"old", "u1", "c1", "t1", 1⟩]
        [⟨"new", "u2", "c2", "t2", 2⟩] ∧
    "old" ∈ removedNames [⟨"old", "u1", "c1", "t1", 1⟩]
        [⟨"new", "u2", "c2", "t2", 2⟩] := by
  have h := C1_diff_partition [⟨"old", "u1", "c1", "t1", 1⟩]
    [⟨"new", "u2", "c2", "t2", 2⟩]
  exact ⟨(h.1 "new").mpr (by decide), (h.2.1 "old").mpr (by decide)⟩

/-- Claim C10: `allFiles` is exactly the current snapshot's name list (the
names of added, modified and unchanged files) and never contains a removed
file's name. -/
theorem C10_allFiles_current (A B : List FileRecord) :
    (detectChanges A B).allFiles = snapshotNames B ∧
    (∀ x, x ∈ (detectChanges A B).allFiles ↔
      (x ∈ addedNames A B ∨ x ∈ modifiedNames A B ∨ x ∈ unchangedNames A B)) ∧
    (∀ r ∈ (detectChanges A B).removed, r.name ∉ (detectChanges A B).allFiles)
    := by
  have hall : (detectChanges A B).allFiles = snapshotNames B := by
    rw [detectChanges_eq]
    rfl
  refine ⟨hall, fun x => ?_, fun r hr => ?_⟩
  · rw [hall]
    constructor
    · intro hxB
      by_cases hxA : x ∈ snapshotNames A
      · obtain ⟨prev, hA⟩ := (mapGet_buildMap_isSome_iff A x).mpr hxA
        obtain ⟨cur, hB⟩ := (mapGet_buildMap_isSome_iff B x).mpr hxB
        cases hdiff : fieldsDiffer cur prev with
        | true =>
          exact Or.inr (Or.inl ((name_mem_modified A B x).mpr
            ⟨prev, cur, hA, hB, hdiff⟩))
        | false =>
          exact Or.inr (Or.inr ((name_mem_unchanged A B x).mpr
            ⟨prev, cur, hA, hB, hdiff⟩))
      · exact Or.inl ((name_mem_added A B x).mpr ⟨hxB, hxA⟩)
    · rintro (h | h | h)
      · exact ((name_mem_added A B x).mp h).1
      · exact (mem_modifiedNames_both A B x h).2
      · exact (mem_unchangedNames_both A B x h).2
  · rw [hall]
    have hx : r.name ∈ removedNames A B := List.mem_map.mpr ⟨r, hr, rfl⟩
    exact ((name_mem_removed A B r.name).mp hx).2

/-- Concrete instantiation: with `old` removed and `new` added, `allFiles`
contains `new` (via the added partition) and does not contain `old`. -/
theorem C10_allFiles_current_witness :
    "new" ∈ (detectChanges [⟨"old", "u1", "c1", "t1", 1⟩]
      [⟨"new", "u2", "c2", "t2", 2⟩]).allFiles := by
  have h := C10_allFiles_current [⟨"old", "u1", "c1", "t1", 1⟩]
    [⟨"new", "u2", "c2", "t2", 2⟩]
  exact (h.2.1 "new").mpr (Or.inl (by decide))

theorem hasChanges_iff_parts (A B : List FileRecord) :
    (detectChanges A B).hasChanges = true ↔
      ((detectChanges A B).added ≠ [] ∨ (detectChanges A B).removed ≠ [] ∨
       (detectChanges A B).modified ≠ []) := by
  simp only [detectChanges_eq]
  rw [Bool.or_eq_true, Bool.or_eq_true, ← addedOf_ne_nil_iff,
    ← removedOf_ne_nil_iff, ← modifiedOf_ne_nil_iff]
  tauto

/-- Claim C2: for every name present in both snapshots, `detectChanges`
emits a modified entry iff checksum, lastModified or size differs, with the
three change flags set exactly when the corresponding field differs;
otherwise the current record is emitted to `unchanged`; and `hasChanges`
holds iff `added`, `removed` or `modified` is non-empty. -/
theorem C2_modified_unchanged_rule (A B : List FileRecord) :
    (∀ x prev cur, mapGet (buildMap A) x = some prev →
      mapGet (buildMap B) x = some cur →
      (((∃ e ∈ (detectChanges A B).modified, e.name = x) ↔
          (cur.checksum ≠ prev.checksum ∨
           cur.lastModified ≠ prev.lastModified ∨ cur.size ≠ prev.size)) ∧
       (∀ e ∈ (detectChanges A B).modified, e.name = x →
          e.previous = prev ∧ e.current = cur ∧
          (e.contentChanged = true ↔ cur.checksum ≠ prev.checksum) ∧
          (e.sizeChanged = true ↔ cur.size ≠ prev.size) ∧
          (e.timeChanged = true ↔ cur.lastModified ≠ prev.lastModified)) ∧
       ((∃ r ∈ (detectChanges A B).unchanged, r.name = x) ↔
          ¬(cur.checksum ≠ prev.checksum ∨
            cur.lastModified ≠ prev.lastModified ∨ cur.size ≠ prev.size)) ∧
       (∀ r ∈ (detectChanges A B).unchanged, r.name = x → r = cur))) ∧
    ((detectChanges A B).hasChanges = true ↔
      ((detectChanges A B).added ≠ [] ∨ (detectChanges A B).removed ≠ [] ∨
       (detectChanges A B).modified ≠ [])) := by
  refine ⟨fun x prev cur hA hB => ⟨?_, ?_, ?_, ?_⟩, hasChanges_iff_parts A B⟩
  · constructor
    · rintro ⟨e, he, hname⟩
      obtain ⟨y, prev', cur', hA', hB', hdiff, hmk⟩ :=
        (mem_modified_iff A B e).mp he
      have hy : y = x := by rw [← hname, hmk]; rfl
      rw [hy] at hA' hB'
      have hp : prev' = prev := Option.some_injective _ (hA'.symm.trans hA)
      have hc : cur' = cur := Option.some_injective _ (hB'.symm.trans hB)
      rw [hp, hc] at hdiff
      exact (fieldsDiffer_iff cur prev).mp hdiff
    · intro hdiff
      refine ⟨mkModifiedEntry x prev cur, (mem_modified_iff A B _).mpr
        ⟨x, prev, cur, hA, hB, (fieldsDiffer_iff cur prev).mpr hdiff, rfl⟩,
        rfl⟩
  · intro e he hname
    obtain ⟨y, prev', cur', hA', hB', hdiff, hmk⟩ :=
      (mem_modified_iff A B e).mp he
    have hy : y = x := by rw [← hname, hmk]; rfl
    rw [hy] at hA' hB'
    have hp : prev' = prev := Option.some_injective _ (hA'.symm.trans hA)
    have hc : cur' = cur := Option.some_injective _ (hB'.symm.trans hB)
    rw [hp, hc] at hmk
    rw [hmk]
    refine ⟨rfl, rfl, ?_, ?_, ?_⟩ <;> simp [mkModifiedEntry]
  · constructor
    · rintro ⟨r, hr, hname⟩
      obtain ⟨y, prev', hA', hB', hdiff⟩ := (mem_unchanged_iff A B r).mp hr
      have hy : y = x := (mapGet_buildMap_eq_some hB').1.symm.trans hname
      rw [hy] at hA' hB'
      have hp : prev' = prev := Option.some_injective _ (hA'.symm.trans hA)
      have hc : r = cur := Option.some_injective _ (hB'.symm.trans hB)
      rw [hp, hc] at hdiff
      rw [← fieldsDiffer_iff cur prev]
      simp [hdiff]
    · intro hdiff
      have hb : fieldsDiffer cur prev = false := by
        cases h : fieldsDiffer cur prev
        · rfl
        · exact absurd ((fieldsDiffer_iff cur prev).mp h) hdiff
      exact ⟨cur, (mem_unchanged_iff A B cur).mpr ⟨x, prev, hA, hB, hb⟩,
        (mapGet_buildMap_eq_some hB).1⟩
  · intro r hr hname
    obtain ⟨y, prev', hA', hB', hdiff⟩ := (mem_unchanged_iff A B r).mp hr
    have hy : y = x := (mapGet_buildMap_eq_some hB').1.symm.trans hname
    rw [hy] at hB'
    exact Option.some_injective _ (hB'.symm.trans hB)

/-- Concrete instantiation of the modification rule: a checksum-only change
on `ch1` yields a modified entry named `ch1`. -/
theorem C2_modified_unchanged_rule_witness :
    ∃ e ∈ (detectChanges [⟨"ch1", "u", "x1", "t1", 10⟩]
      [⟨"ch1", "u", "x2", "t1", 10⟩]).modified, e.name = "ch1" := by
  have h := C2_modified_unchanged_rule [⟨"ch1", "u", "x1", "t1", 10⟩]
    [⟨"ch1", "u", "x2", "t1", 10⟩]
  exact ((h.1 "ch1" ⟨"ch1", "u", "x1", "t1", 10⟩ ⟨"ch1", "u", "x2", "t1", 10⟩
    (by decide) (by decide)).1).mpr (by decide)

/-! ### The checksum (`generateChecksum`) -/

/-- Two's-complement 32-bit reinterpretation of an integer, as JavaScript
ToInt32 (applied by the `<<` and `&` operators): the representative of
`n mod 2^32` lying in `[-2^31, 2^31)`. -/
def toInt32 (n : Int) : Int :=
  (n + 2147483648) % 4294967296 - 2147483648

/-- One digit as produced by JS `Number.toString(36)`: `0`-`9` then
`a`-`z`. -/
def base36Digit (n : Nat) : Char :=
  if n < 10 then Char.ofNat (48 + n) else Char.ofNat (87 + n)

/-- Digits (most significant first) of `n` in base 36, accumulated right to
left; `fuel ≥ n` bounds the recursion depth. -/
def natToBase36Aux : Nat → Nat → List Char → List Char
  | 0, _, acc => acc
  | fuel + 1, n, acc =>
    if n = 0 then acc
    else natToBase36Aux fuel (n / 36) (base36Digit (n % 36) :: acc)

/-- JS `Number.prototype.toString(36)` on a natural number. -/
def natToBase36 (n : Nat) : String :=
  if n = 0 then "0" else String.mk (natToBase36Aux n n [])

/-- JS `Number.prototype.toString(36)` on a 32-bit signed value: negative
values render as a minus sign followed by the magnitude. -/
def intToString36 (i : Int) : String :=
  if i < 0 then "-" ++ natToBase36 i.natAbs else natToBase36 i.toNat

/-- One iteration of the checksum loop:
`hash = ((hash << 5) - hash) + char; hash = hash & hash`.  Both `<<` and
`&` coerce through ToInt32, so the new hash is the 32-bit signed value of
`toInt32(hash * 32) - hash + code`. -/
def checksumStep (hash : Int) (c : Char) : Int :=
  toInt32 (toInt32 (hash * 32) - hash + c.toNat)

/-- `generateChecksum(content)`: fold the step over the characters starting
from 0, then render in base 36. -/
def generateChecksum (content : String) : String :=
  intToString36 (content.data.foldl checksumStep 0)

/-- The accumulator update in the words of the claim (and of spec §4.1):
`hash = (hash*31 - hash) + code` under 32-bit signed wraparound. -/
def claimChecksumStepC3 (hash : Int) (c : Char) : Int :=
  toInt32 (hash * 31 - hash + c.toNat)

/-- The fingerprint as the claim words it, for comparison with
`generateChecksum`. -/
def claimChecksumC3 (content : String) : String :=
  intToString36 (content.data.foldl claimChecksumStepC3 0)

theorem toInt32_add_left (a b : Int) :
    toInt32 (toInt32 a + b) = toInt32 (a + b) := by
  unfold toInt32
  omega

theorem checksumStep_eq (h : Int) (c : Char) :
    checksumStep h c = toInt32 (31 * h + c.toNat) := by
  unfold checksumStep
  rw [show toInt32 (h * 32) - h + (c.toNat : Int) =
    toInt32 (h * 32) + ((c.toNat : Int) - h) by ring]
  rw [toInt32_add_left]
  congr 1
  ring

/-- Claim C3 as stated is false: on the content `"ab"` the claimed
recurrence `hash = (hash*31 - hash) + code` (which is `30*hash + code`)
produces the fingerprint `"2bk"`, while `generateChecksum` — whose step is
`(hash << 5) - hash + code`, i.e. `31*hash + code` — produces `"2e9"`. -/
theorem C3_checksum_counterexample :
    claimChecksumC3 "ab" ≠ generateChecksum "ab" ∧
    claimChecksumC3 "ab" = "2bk" ∧ generateChecksum "ab" = "2e9" := by
  refine ⟨?_, ?_, ?_⟩ <;> decide

/-- Claim C3 amended: `generateChecksum` returns the base-36 rendering of
the accumulator obtained by iterating each character's code point starting
from 0 and updating `hash = (hash*32 - hash) + code`, i.e.
`hash*31 + code`, reduced mod 2^32 with sign. -/
theorem C3_checksum_amended (s : String) :
    generateChecksum s =
      intToString36
        (s.data.foldl (fun h c => toInt32 (31 * h + c.toNat)) 0) := by
  unfold generateChecksum
  congr 1
  have hstep : checksumStep = fun h c => toInt32 (31 * h + c.toNat) := by
    funext h c
    exact checksumStep_eq h c
  rw [hstep]

/-! ### The metadata fetcher (`getFileInfo`) -/

/-- Response of the transport collaborator on a GET: the status flag, the
body text, and the optional `last-modified` and `date` headers. -/
structure HttpResponse where
  ok : Bool
  body : String
  lastModifiedHeader : Option String
  dateHeader : Option String
deriving Repr, DecidableEq

/-- JS `a || b` on a header value: both `null` and the empty string are
falsy. -/
def headerOrElse (a : Option String) (b : String) : String :=
  match a with
  | none => b
  | some s => if s = "" then b else s

/-- Result of `getFileInfo`: either the populated info record or
`{exists: false}`. -/
inductive FileInfoResult where
  | found (content checksum lastModified : String) (size : Nat)
  | absent
deriving Repr, DecidableEq

/-- `getFileInfo(url)`: the transport either throws (`none`) or yields a
response; `nowIso` is the `new Date().toISOString()` fallback value. -/
def getFileInfo (response : Option HttpResponse) (nowIso : String) :
    FileInfoResult :=
  match response with
  | none => .absent
  | some r =>
    if r.ok then
      .found r.body (generateChecksum r.body)
        (headerOrElse r.lastModifiedHeader (headerOrElse r.dateHeader nowIso))
        r.body.length
    else .absent

/-- Claim C5: `getFileInfo` never raises — transport failure (`none`) and
non-success status both yield `{exists: false}` — and on success it returns
the body text, its fingerprint per `generateChecksum`, size equal to the
content length, and a last-modified token taken from the `last-modified`
header, falling back to the `date` header, falling back to the current
time when neither is present. -/
theorem C5_getFileInfo_total (response : Option HttpResponse)
    (nowIso : String) :
    (response = none → getFileInfo response nowIso = .absent) ∧
    (∀ r, response = some r → r.ok = false →
      getFileInfo response nowIso = .absent) ∧
    (∀ r, response = some r → r.ok = true →
      getFileInfo response nowIso =
        .found r.body (generateChecksum r.body)
          (headerOrElse r.lastModifiedHeader
            (headerOrElse r.dateHeader nowIso))
          r.body.length ∧
      (r.lastModifiedHeader = none → r.dateHeader = none →
        headerOrElse r.lastModifiedHeader
          (headerOrElse r.dateHeader nowIso) = nowIso)) := by
  refine ⟨fun h => by rw [h]; rfl, fun r hr hok => ?_, fun r hr hok =>
    ⟨?_, fun h1 h2 => by rw [h1, h2]; rfl⟩⟩
  · rw [hr]
    simp [getFileInfo, hok]
  · rw [hr]
    simp [getFileInfo, hok]

/-- Concrete instantiation: a thrown fetch and a non-success status give
`{exists:false}`; a success with no headers falls back to the current
time, with size the content length. -/
theorem C5_getFileInfo_total_witness :
    getFileInfo none "now" = .absent ∧
    getFileInfo (some ⟨false, "b", none, none⟩) "now" = .absent ∧
    getFileInfo (some ⟨true, "ab", none, none⟩) "now" =
      .found "ab" (generateChecksum "ab") "now" 2 := by
  refine ⟨(C5_getFileInfo_total none "now").1 rfl, ?_, ?_⟩
  · exact (C5_getFileInfo_total (some ⟨false, "b", none, none⟩) "now").2.1
      ⟨false, "b", none, none⟩ rfl rfl
  · have h := (C5_getFileInfo_total (some ⟨true, "ab", none, none⟩) "now").2.2
      ⟨true, "ab", none, none⟩ rfl rfl
    exact h.1

/-! ### The existence cache (`testFileExists`) -/

/-- One entry of the scanner's existence cache:
`{exists: boolean, timestamp: number}`. -/
structure CacheEntry where
  found : Bool
  timestamp : Nat
deriving Repr, DecidableEq

/-- The `this.cache` map. -/
abbrev ExistsCache := List (String × CacheEntry)

/-- `this.cache.get(key)`. -/
def cacheGet (m : ExistsCache) (k : String) : Option CacheEntry :=
  (m.find? (fun p => p.1 == k)).map Prod.snd

/-- `this.cache.set(key, value)`. -/
def cacheSet (m : ExistsCache) (k : String) (v : CacheEntry) : ExistsCache :=
  match m with
  | [] => [(k, v)]
  | p :: rest => if p.1 = k then (k, v) :: rest else p :: cacheSet rest k v

/-- Outcome of one `testFileExists` call: the returned boolean, the cache
afterwards, and how many transport (HEAD) calls were issued. -/
structure ProbeOutcome where
  result : Bool
  cache : ExistsCache
  transportCalls : Nat
deriving Repr, DecidableEq

/-- `testFileExists(url)` at time `now`.  The transport collaborator is
`none` for a thrown network error and `some ok` for a response with
`response.ok = ok`.  A fresh (< 30000 ms) cache entry is returned without
probing; otherwise one HEAD probe is issued; a completed probe is written
back with the current timestamp; a thrown probe is caught and returns
`false` without touching the cache. -/
def testFileExists (cache : ExistsCache) (now : Nat) (transport : Option Bool)
    (url : String) : ProbeOutcome :=
  let cacheKey := "exists:" ++ url
  let hit : Option Bool :=
    match cacheGet cache cacheKey with
    | some cached =>
      if now - cached.timestamp < 30000 then some cached.found else none
    | none => none
  match hit with
  | some b => { result := b, cache := cache, transportCalls := 0 }
  | none =>
    match transport with
    | some ok =>
      { result := ok, cache := cacheSet cache cacheKey ⟨ok, now⟩,
        transportCalls := 1 }
    | none => { result := false, cache := cache, transportCalls := 1 }

theorem cacheGet_cacheSet_self (m : ExistsCache) (k : String)
    (v : CacheEntry) : cacheGet (cacheSet m k v) k = some v := by
  induction m with
  | nil => simp [cacheSet, cacheGet]
  | cons p rest ih =>
    by_cases h : p.1 = k
    · simp [cacheSet, h, cacheGet]
    · simpa [cacheSet, h, cacheGet, List.find?_cons_of_neg, h] using ih

/-- Claim C4 as stated is false at a thrown transport failure: probing a
URL with an empty cache returns false and issues one transport call but
does NOT write the boolean back into the cache, so a second probe of the
same URL within 30 seconds issues another transport call — two in total,
not one. -/
theorem C4_cache_counterexample :
    (testFileExists [] 0 none "u.xml").cache = [] ∧
    (testFileExists [] 0 none "u.xml").result = false ∧
    (testFileExists [] 0 none "u.xml").transportCalls = 1 ∧
    (testFileExists (testFileExists [] 0 none "u.xml").cache 1000 none
      "u.xml").transportCalls = 1 := by
  refine ⟨?_, ?_, ?_, ?_⟩ <;> decide

/-- Claim C4 amended: a cache entry younger than 30s is returned without a
transport call; otherwise exactly one probe is issued, a completed probe
(whatever its status) is written back with the current timestamp, and a
thrown transport failure yields `false` with the cache left unchanged;
consequently two probes of the same URL within 30 seconds issue exactly
one transport call provided the first probe's transport call completes. -/
theorem C4_existence_cache_amended (cache : ExistsCache) (now : Nat)
    (transport : Option Bool) (url : String) :
    (∀ e, cacheGet cache ("exists:" ++ url) = some e →
      now - e.timestamp < 30000 →
      testFileExists cache now transport url = ⟨e.found, cache, 0⟩) ∧
    (¬(∃ e, cacheGet cache ("exists:" ++ url) = some e ∧
        now - e.timestamp < 30000) →
      (∀ ok, transport = some ok →
        testFileExists cache now transport url =
          ⟨ok, cacheSet cache ("exists:" ++ url) ⟨ok, now⟩, 1⟩) ∧
      (transport = none →
        testFileExists cache now transport url = ⟨false, cache, 1⟩)) ∧
    (∀ ok t2 tr2, t2 - now < 30000 →
      (testFileExists cache now (some ok) url).transportCalls = 1 →
      testFileExists (testFileExists cache now (some ok) url).cache t2 tr2
          url =
        ⟨ok, (testFileExists cache now (some ok) url).cache, 0⟩) := by
  refine ⟨fun e he hfresh => ?_, fun hmiss => ⟨fun ok htr => ?_, fun htr => ?_⟩,
    fun ok t2 tr2 ht2 hcalls => ?_⟩
  · unfold testFileExists
    simp [he, hfresh]
  · unfold testFileExists
    cases hget : cacheGet cache ("exists:" ++ url) with
    | none => simp [hget, htr]
    | some e =>
      have hstale : ¬(now - e.timestamp < 30000) := fun hf =>
        hmiss ⟨e, hget, hf⟩
      simp [hget, hstale, htr]
  · unfold testFileExists
    cases hget : cacheGet cache ("exists:" ++ url) with
    | none => simp [hget, htr]
    | some e =>
      have hstale : ¬(now - e.timestamp < 30000) := fun hf =>
        hmiss ⟨e, hget, hf⟩
      simp [hget, hstale, htr]
  · have houtcome : testFileExists cache now (some ok) url =
        ⟨ok, cacheSet cache ("exists:" ++ url) ⟨ok, now⟩, 1⟩ := by
      unfold testFileExists at hcalls ⊢
      cases hget : cacheGet cache ("exists:" ++ url) with
      | none => simp [hget]
      | some e =>
        by_cases hfresh : now - e.timestamp < 30000
        · simp [hget, hfresh] at hcalls
        · simp [hget, hfresh]
    rw [houtcome]
    unfold testFileExists
    simp [cacheGet_cacheSet_self, ht2]

/-- Concrete instantiation of the amended cache contract: a first probe
with a completing transport on an empty cache issues one call and writes
the entry; a second probe 10 seconds later issues none and returns the
cached boolean. -/
theorem C4_existence_cache_amended_witness :
    testFileExists [] 0 (some true) "u.xml" =
      ⟨true, [("exists:u.xml", ⟨true, 0⟩)], 1⟩ ∧
    testFileExists (testFileExists [] 0 (some true) "u.xml").cache 10000
        none "u.xml" =
      ⟨true, (testFileExists [] 0 (some true) "u.xml").cache, 0⟩ := by
  have h := C4_existence_cache_amended [] 0 (some true) "u.xml"
  refine ⟨?_, ?_⟩
  · have h2 := (h.2.1 (by decide)).1 true rfl
    rw [h2]
    decide
  · exact h.2.2 true 10000 none (by decide) (by decide)

/-! ### Scanner state: constructor, `performScan`, `refreshFile`,
`getCachedContent`, `cleanupCache` -/

/-- The mutable fields of `XMLFileScanner` relevant to snapshots and
caches (the interval handle is scheduling-only and omitted). -/
structure ScannerState where
  cache : ExistsCache
  contentCache : List (String × String)
  lastScanResults : List FileRecord
deriving Repr, DecidableEq

/-- `new XMLFileScanner()`: both caches and the retained snapshot start
empty. -/
def initialScanner : ScannerState :=
  { cache := [], contentCache := [], lastScanResults := [] }

/-- The `detectChanges` method as a state transformer: its body reads
`this.lastScanResults` and assigns no field of `this`. -/
def detectChangesM (st : ScannerState) (currentFiles : List FileRecord) :
    ChangeReport × ScannerState :=
  (detectChanges st.lastScanResults currentFiles, st)

/-- `performScan(basePath)` with the snapshot that `scanDirectory`
assembled passed in explicitly: detect changes, then assign
`this.lastScanResults = currentFiles` unconditionally. -/
def performScan (st : ScannerState) (currentFiles : List FileRecord) :
    ChangeReport × ScannerState :=
  let res := detectChangesM st currentFiles
  (res.1, { res.2 with lastScanResults := currentFiles })

/-- `refreshFile(fileName, basePath)`: delete the existence-cache entry and
the content-cache entry for the file's url, then call `getFileInfo` afresh
(`Map.delete` removes the entry with that key).  The method never writes
`contentCache`. -/
def refreshFile (st : ScannerState) (fileName basePath : String)
    (response : Option HttpResponse) (nowIso : String) :
    FileInfoResult × ScannerState :=
  let fileUrl := basePath ++ fileName ++ ".xml"
  (getFileInfo response nowIso,
    { st with
      cache := st.cache.filter (fun p => p.1 ≠ "exists:" ++ fileUrl),
      contentCache := st.contentCache.filter (fun p => p.1 ≠ fileUrl) })

/-- `getCachedContent(fileName, basePath)`:
`this.contentCache.get(basePath + fileName + ".xml")`. -/
def getCachedContent (st : ScannerState) (fileName basePath : String) :
    Option String :=
  (st.contentCache.find?
    (fun p => p.1 == basePath ++ fileName ++ ".xml")).map Prod.snd

/-- `cleanupCache(maxAge)` at time `now`: evict every existence-cache entry
older than `maxAge`. -/
def cleanupCache (st : ScannerState) (now maxAge : Nat) : ScannerState :=
  { st with
    cache := st.cache.filter (fun p => ¬(now - p.2.timestamp > maxAge)) }

/-- The state-touching scanner operations, with their external inputs
(network responses, clock readings) made explicit. -/
inductive ScannerOp where
  | scan (currentFiles : List FileRecord)
  | probe (now : Nat) (transport : Option Bool) (url : String)
  | refresh (fileName basePath : String) (response : Option HttpResponse)
      (nowIso : String)
  | cleanup (now maxAge : Nat)
deriving Repr, DecidableEq

/-- Effect of one operation on the scanner state. -/
def applyOp (st : ScannerState) : ScannerOp → ScannerState
  | .scan currentFiles => (performScan st currentFiles).2
  | .probe now transport url =>
    { st with cache := (testFileExists st.cache now transport url).cache }
  | .refresh fileName basePath response nowIso =>
    (refreshFile st fileName basePath response nowIso).2
  | .cleanup now maxAge => cleanupCache st now maxAge

/-- Claim C6: after change detection the retained previous snapshot is
wholesale replaced by the current snapshot — unconditionally, hence
regardless of whether the report found changes — and the report itself is
the diff of the old retained snapshot against the current one. -/
theorem C6_snapshot_replaced (st : ScannerState)
    (currentFiles : List FileRecord) :
    (performScan st currentFiles).2.lastScanResults = currentFiles ∧
    (performScan st currentFiles).2.cache = st.cache ∧
    (performScan st currentFiles).1 =
      detectChanges st.lastScanResults currentFiles :=
  ⟨rfl, rfl, rfl⟩

/-- Claim C7: the change detector mutates no scanner state — its method
body only reads `this.lastScanResults` — and running it twice with the same
(previous, current) snapshot pair yields identical reports. -/
theorem C7_detect_pure (st : ScannerState) (currentFiles : List FileRecord) :
    (detectChangesM st currentFiles).2 = st ∧
    (detectChangesM (detectChangesM st currentFiles).2 currentFiles).1 =
      (detectChangesM st currentFiles).1 :=
  ⟨rfl, rfl⟩

theorem contentCache_stays_empty (st : ScannerState)
    (h : st.contentCache = []) (op : ScannerOp) :
    (applyOp st op).contentCache = [] := by
  cases op with
  | scan currentFiles => simpa [applyOp, performScan, detectChangesM] using h
  | probe now transport url => simpa [applyOp] using h
  | refresh fileName basePath response nowIso =>
    simp [applyOp, refreshFile, h]
  | cleanup now maxAge => simpa [applyOp, cleanupCache] using h

/-- Claim C9 is the intended behaviour, but the code never populates
`this.contentCache`: the constructor creates it empty, `refreshFile` only
deletes from it, and no other method writes it.  So after ANY sequence of
scanner operations — scans, probes, forced refreshes, cache cleanups — the
content cache is still empty and `getCachedContent` returns `undefined`
(here `none`) instead of the previously fetched content. -/
theorem C9_getCachedContent_always_none (ops : List ScannerOp)
    (fileName basePath : String) :
    (ops.foldl applyOp initialScanner).contentCache = [] ∧
    getCachedContent (ops.foldl applyOp initialScanner) fileName basePath =
      none := by
  have hmain : ∀ st, st.contentCache = [] →
      (ops.foldl applyOp st).contentCache = [] := by
    induction ops with
    | nil => intro st h; simpa using h
    | cons op rest ih =>
      intro st h
      exact ih (applyOp st op) (contentCache_stays_empty st h op)
  have h0 : (ops.foldl applyOp initialScanner).contentCache = [] :=
    hmain initialScanner rfl
  refine ⟨h0, ?_⟩
  rw [getCachedContent, h0]
  rfl

/-! ### The index-file discovery strategy (`tryIndexFile`) -/

/-- The characters of the literal `".xml"`. -/
def xmlPat : List Char := ['.', 'x', 'm', 'l']

/-- JS `line.includes(pat)` on character lists. -/
def containsSeq (pat : List Char) : List Char → Bool
  | [] => pat.isEmpty
  | c :: rest => pat.isPrefixOf (c :: rest) || containsSeq pat rest

/-- JS `line.replace(pat, "")`: remove the first occurrence of `pat`, if
any. -/
def removeFirstSeq (pat : List Char) : List Char → List Char
  | [] => []
  | c :: rest =>
    if pat.isPrefixOf (c :: rest) then (c :: rest).drop pat.length
    else c :: removeFirstSeq pat rest

/-- The longest suffix without a `/`: what the end-anchored group
`([^\/]+?)` captures — the path segment after the last slash. -/
def lastSegment (l : List Char) : List Char :=
  (l.reverse.takeWhile (fun c => c ≠ '/')).reverse

/-- Whether the line ends with `.xml` up to case (`\.xml$/i`: a literal
dot, then `xml` case-insensitively). -/
def endsWithCiXml (l : List Char) : Bool :=
  match (l.map Char.toLower).reverse with
  | 'l' :: 'm' :: 'x' :: '.' :: _ => true
  | _ => false

/-- `line.match(/([^\/]+?)\.xml$/i)`: when the line ends in `.xml` (up to
case) with at least one non-slash character before it, the capture is the
segment between the last `/` and that final `.xml`; otherwise no match. -/
def regexXmlName (l : List Char) : Option (List Char) :=
  if endsWithCiXml l then
    let seg := lastSegment (l.take (l.length - 4))
    if seg.isEmpty then none else some seg
  else none

/-- The per-line name extraction of `tryIndexFile`: the regex capture when
the regex matches, else `line.replace(".xml", "")`. -/
def extractName (l : List Char) : List Char :=
  match regexXmlName l with
  | some m => m
  | none => removeFirstSeq xmlPat l

/-- The line filter of `tryIndexFile`:
`line && (line.endsWith(".xml") || line.includes(".xml"))`. -/
def keepLine (l : List Char) : Bool :=
  !l.isEmpty && (xmlPat.isSuffixOf l || containsSeq xmlPat l)

/-- JS `text.split("\n")` on character lists: the chunks between newline
characters, including empty ones. -/
def splitNl : List Char → List (List Char)
  | [] => [[]]
  | c :: rest =>
    if c = '\n' then [] :: splitNl rest
    else
      match splitNl rest with
      | [] => [[c]]
      | first :: others => (c :: first) :: others

/-- JS `line.trim()` on character lists: drop leading and trailing
whitespace. -/
def trimChars (l : List Char) : List Char :=
  List.reverse
    (List.dropWhile Char.isWhitespace
      (List.reverse (List.dropWhile Char.isWhitespace l)))

/-- The body parser of `tryIndexFile`: split on newlines, trim each line,
keep lines mentioning `.xml`, extract the logical name, drop empties. -/
def parseIndexBody (text : String) : List String :=
  let lines := (splitNl text.data).map trimChars
  let kept := lines.filter keepLine
  let names := kept.map (fun line => String.mk (extractName line))
  names.filter (fun file => file.length > 0)

/-- The fixed ordered list of candidate index filenames. -/
def indexFileNames : List String :=
  ["index.txt", "files.txt", "chapters.txt", "list.txt", "manifest.txt",
   "xml-list.txt"]

/-- The loop of `tryIndexFile` over the candidate index files. `transport`
yields the body for an index file name when the fetch succeeds
(`response.ok`), and `none` on failure or a thrown error.  The first
candidate whose parsed body is non-empty wins; later candidates are not
consulted and results are never unioned. -/
def tryIndexFileGo (transport : String → Option String) :
    List String → List String
  | [] => []
  | idx :: rest =>
    match transport idx with
    | some text =>
      let files := parseIndexBody text
      if files.length > 0 then files else tryIndexFileGo transport rest
    | none => tryIndexFileGo transport rest

/-- `tryIndexFile(basePath)` with the base path folded into the transport
collaborator. -/
def tryIndexFile (transport : String → Option String) : List String :=
  tryIndexFileGo transport indexFileNames

theorem takeWhile_append_sep (p : Char → Bool) (l1 : List Char) (c : Char)
    (l2 : List Char) (h1 : ∀ x ∈ l1, p x = true) (hc : p c = false) :
    (l1 ++ c :: l2).takeWhile p = l1 := by
  induction l1 with
  | nil => simp [List.takeWhile_cons, hc]
  | cons a l ih =>
    rw [List.cons_append, List.takeWhile_cons_of_pos (h1 a (by simp))]
    rw [ih (fun x hx => h1 x (by simp [hx]))]

theorem lastSegment_append (stem seg : List Char) (hseg : '/' ∉ seg) :
    lastSegment (stem ++ '/' :: seg) = seg := by
  rw [lastSegment, List.reverse_append, List.reverse_cons, List.append_assoc]
  rw [List.singleton_append]
  rw [takeWhile_append_sep _ _ '/' _ ?h1 (by simp)]
  · exact List.reverse_reverse seg
  case h1 =>
    intro x hx
    have hxs : x ∈ seg := List.mem_reverse.mp hx
    have hne : x ≠ '/' := fun he => hseg (he ▸ hxs)
    simp [hne]

theorem endsWithCiXml_append (l : List Char) :
    endsWithCiXml (l ++ xmlPat) = true := by
  unfold endsWithCiXml
  rw [List.map_append, List.reverse_append]
  rfl

theorem extractName_xml_suffix (stem seg : List Char) (hne : seg ≠ [])
    (hseg : '/' ∉ seg) :
    extractName ((stem ++ '/' :: seg) ++ xmlPat) = seg := by
  have hlen : ((stem ++ '/' :: seg) ++ xmlPat).length - 4 =
      (stem ++ '/' :: seg).length := by
    simp [xmlPat]
    omega
  unfold extractName regexXmlName
  rw [endsWithCiXml_append]
  simp only [if_true]
  rw [hlen, List.take_left, lastSegment_append stem seg hseg]
  simp [hne]

theorem tryIndexFileGo_skip (transport : String → Option String)
    (pre rest : List String)
    (hskip : ∀ j ∈ pre, transport j = none ∨
      (∃ b, transport j = some b ∧ parseIndexBody b = [])) :
    tryIndexFileGo transport (pre ++ rest) = tryIndexFileGo transport rest
    := by
  induction pre with
  | nil => rfl
  | cons j pre ih =>
    rw [List.cons_append, tryIndexFileGo]
    rcases hskip j (by simp) with h | ⟨b, hb, hparse⟩
    · rw [h]
      exact ih (fun x hx => hskip x (by simp [hx]))
    · rw [hb]
      simp only [hparse, List.length_nil, gt_iff_lt, Nat.lt_irrefl,
        if_false]
      exact ih (fun x hx => hskip x (by simp [hx]))

/-- Claim C8's per-line naming rule is false for kept lines that do not
END in `.xml`: given the body "a/b.xml.bak" via index.txt, the line
mentions `.xml` and is kept, but the end-anchored regex does not match, so
the code falls back to `line.replace(".xml", "")`, producing "a/b.bak" —
not the segment "b" before `.xml` after the last `/` that the claim
prescribes. -/
theorem C8_index_strategy_counterexample :
    tryIndexFile
        (fun idx => if idx = "index.txt" then some "a/b.xml.bak\n"
          else none) =
      ["a/b.bak"] ∧ ("a/b.bak" : String) ≠ "b" := by
  refine ⟨?_, ?_⟩ <;> decide

/-- Claim C8 amended: the strategy tries the fixed ordered candidate list
and returns the parse of the first index file whose fetched body yields at
least one usable name, never a union; each kept line is trimmed and must
mention `.xml`; a kept line ending (up to case) in `.xml` with a non-slash
character before it contributes the segment after the last `/` and before
that final `.xml`, while any other kept line contributes the line with its
first literal `.xml` removed; in particular a body of
"chapter-1.xml\nchapter-2.xml\n" yields exactly chapter-1 and
chapter-2. -/
theorem C8_index_strategy_amended (transport : String → Option String)
    (pre post : List String) (i t : String)
    (hcand : indexFileNames = pre ++ i :: post)
    (hskip : ∀ j ∈ pre, transport j = none ∨
      (∃ b, transport j = some b ∧ parseIndexBody b = []))
    (hi : transport i = some t) (hne : parseIndexBody t ≠ []) :
    tryIndexFile transport = parseIndexBody t ∧
    (∀ stem seg : List Char, seg ≠ [] → '/' ∉ seg →
      extractName ((stem ++ '/' :: seg) ++ xmlPat) = seg) ∧
    parseIndexBody "chapter-1.xml\nchapter-2.xml\n" =
      ["chapter-1", "chapter-2"] := by
  refine ⟨?_, fun stem seg h1 h2 => extractName_xml_suffix stem seg h1 h2,
    by decide⟩
  rw [tryIndexFile, hcand, tryIndexFileGo_skip transport pre _ hskip]
  rw [tryIndexFileGo, hi]
  have hpos : 0 < (parseIndexBody t).length := List.length_pos.mpr hne
  simp [hpos]

/-- Concrete instantiation: with index.txt serving the two-chapter body and
every other candidate failing, the strategy returns exactly chapter-1 and
chapter-2. -/
theorem C8_index_strategy_amended_witness :
    tryIndexFile (fun idx => if idx = "index.txt"
        then some "chapter-1.xml\nchapter-2.xml\n" else none) =
      ["chapter-1", "chapter-2"] := by
  have h := C8_index_strategy_amended
    (fun idx => if idx = "index.txt"
      then some "chapter-1.xml\nchapter-2.xml\n" else none)
    [] ["files.txt", "chapters.txt", "list.txt", "manifest.txt",
      "xml-list.txt"]
    "index.txt" "chapter-1.xml\nchapter-2.xml\n" rfl
    (fun j hj => absurd hj (List.not_mem_nil j)) (by decide) (by decide)
  rw [h.1]
  exact h.2.2

section Sanity

example :
    (detectChanges [] [⟨"ch1", "u", "x1", "t1", 10⟩]).added =
      [⟨"ch1", "u", "x1", "t1", 10⟩] := by decide

example :
    (detectChanges [] [⟨"ch1", "u", "x1", "t1", 10⟩]).hasChanges = true := by
  decide

example :
    (detectChanges [⟨"ch1", "u", "x1", "t1", 10⟩]
      [⟨"ch1", "u", "x1", "t1", 10⟩]).hasChanges = false := by decide

example :
    (detectChanges [⟨"ch1", "u", "x1", "t1", 10⟩]
        [⟨"ch1", "u", "x2", "t1", 10⟩]).modified =
      [⟨"ch1", ⟨"ch1", "u", "x1", "t1", 10⟩, ⟨"ch1", "u", "x2", "t1", 10⟩,
        true, false, false⟩] := by decide

end Sanity

end Scanner
